import Mathlib

/-!
Verification of the document ingestion and chunking orchestration engine of
the open-ai-integration repository.

The repository snapshot contains the web front end (TypeScript) and the
README documentation of the FastAPI backend; the backend chunking and task
modules themselves (for instance `app/services/document_chunker.py`) are not
present, only their documentation and the front-end type declarations.
Definitions for those parts are therefore modelled from the specification,
and are marked as such in their doc comments.  The front-end functions
`processFiles` (DocumentUpload.tsx) and `handleStreamResponse`
(knowledgeBaseService.ts) are embedded from the source.
-/

namespace Rag

/-- Modelled from the spec: the `strategy` enum of `ChunkingConfig` (spec §3);
the backend module `document_chunker.py` that declares it is not in the
repository snapshot. -/
inductive ChunkStrategy where
  | paragraph
  | token
  | character
  | markdown
  | sentence
  | newline
  | double_newline
  | chinese
  | code
  | custom
deriving DecidableEq, Repr

/-- Modelled from the spec: `ChunkingConfig` (spec §3).  Separators are lists
of characters; document content is likewise a list of characters. -/
structure ChunkingConfig where
  strategy : ChunkStrategy
  chunk_size : Nat
  chunk_overlap : Nat
  custom_separators : List (List Char)
deriving DecidableEq, Repr

/-- Modelled from the spec: the configuration invariants of spec §3 —
`chunk_size` positive, `chunk_overlap` in `[0, chunk_size)`, and a non-empty
separator list when the strategy is `custom`. -/
def ChunkingConfig.valid (c : ChunkingConfig) : Bool :=
  decide (0 < c.chunk_size) && decide (c.chunk_overlap < c.chunk_size) &&
    (c.strategy != ChunkStrategy.custom || !c.custom_separators.isEmpty)

/-- Modelled from the spec: the ordered candidate separator list of each
strategy (spec §4.1 and the README's strategy table); `token` and `character`
use pure windowing by size. -/
def strategySeparators (strategy : ChunkStrategy) (customSeps : List (List Char)) :
    List (List Char) :=
  match strategy with
  | .paragraph => [['\n', '\n'], ['\n']]
  | .token => []
  | .character => []
  | .markdown => [['\n', '#', ' '], ['\n', '\n'], ['\n']]
  | .sentence => [['.', ' '], ['!', ' '], ['?', ' '], ['\n']]
  | .newline => [['\n']]
  | .double_newline => [['\n', '\n']]
  | .chinese => [['。'], ['！'], ['？'], ['\n']]
  | .code => [['\n', '\n'], ['\n']]
  | .custom => customSeps

/-- Hard character windowing at `size` boundaries, fuel-indexed (the fuel is
instantiated with the content length, which bounds the recursion depth). -/
def windowsGo (size : Nat) : Nat → List Char → List (List Char)
  | _, [] => []
  | 0, cs => [cs]
  | fuel + 1, c :: cs => (c :: cs).take size :: windowsGo size fuel ((c :: cs).drop size)

/-- Modelled from the spec: the hard character-windowing fallback of §4.1. -/
def windows (size : Nat) (content : List Char) : List (List Char) :=
  windowsGo size content.length content

/-- Boolean test that `pat` is an initial run of `l`. -/
def startsWith : List Char → List Char → Bool
  | [], _ => true
  | _ :: _, [] => false
  | a :: as, b :: bs => a == b && startsWith as bs

/-- Splitting on one separator with the separator kept attached to the end of
the preceding piece, so that no character of the document is lost. -/
def splitKeepGo (sep : List Char) : Nat → List Char → List Char → List (List Char)
  | _, acc, [] => if acc.isEmpty then [] else [acc.reverse]
  | 0, acc, rest => [acc.reverse ++ rest]
  | fuel + 1, acc, c :: cs =>
      if startsWith sep (c :: cs) then
        (acc.reverse ++ sep) :: splitKeepGo sep fuel [] ((c :: cs).drop sep.length)
      else
        splitKeepGo sep fuel (c :: acc) cs

/-- Modelled from the spec: split the content at every occurrence of one
separator (spec §4.1), keeping separators so the pieces concatenate back to
the content. -/
def splitKeep (sep : List Char) (content : List Char) : List (List Char) :=
  splitKeepGo sep content.length [] content

/-- Greedy merging of adjacent pieces while the combined piece stays within
`size`, fuel-indexed by the number of remaining pieces. -/
def mergeGo (size : Nat) : Nat → List Char → List (List Char) → List (List Char)
  | _, cur, [] => [cur]
  | 0, cur, rest => cur :: rest
  | fuel + 1, cur, p :: ps =>
      if (cur ++ p).length ≤ size then mergeGo size fuel (cur ++ p) ps
      else cur :: mergeGo size fuel p ps

/-- Modelled from the spec: merge adjacent pieces until no merged piece
exceeds `chunk_size` (spec §4.1). -/
def mergeAdjacent (size : Nat) : List (List Char) → List (List Char)
  | [] => []
  | p :: ps => mergeGo size ps.length p ps

/-- Recursive splitting, fuel-indexed so the definition is structurally
recursive (the fuel is instantiated with the separator-list length, which
bounds the recursion depth exactly). -/
def splitRecFuel (size : Nat) : Nat → List (List Char) → List Char → List (List Char)
  | _, [], content => windows size content
  | 0, _ :: _, content => windows size content
  | fuel + 1, sep :: rest, content =>
      if content.length ≤ size then (if content.isEmpty then [] else [content])
      else
        mergeAdjacent size
          (((splitKeep sep content).map (fun p =>
              if p.length ≤ size then [p] else splitRecFuel size fuel rest p)).flatten)

/-- Modelled from the spec: the recursive splitting algorithm of §4.1 — split
on the first separator, recursively split oversized pieces on the remaining
separators, merge adjacent small pieces, and fall back to hard character
windowing when no separator is left. -/
def splitRec (size : Nat) (seps : List (List Char)) (content : List Char) :
    List (List Char) :=
  splitRecFuel size seps.length seps content

/-- The last `n` characters of `l` (all of `l` when `l` is shorter). -/
def takeLast (n : Nat) (l : List Char) : List Char := l.drop (l.length - n)

/-- Modelled from the spec: prepend to every piece the trailing
`chunk_overlap` characters of the document prefix already emitted
(spec §4.1's overlapping windows between consecutive output segments).
`acc` is the concatenation of the pieces already processed. -/
def addOverlapGo (overlap : Nat) : List Char → List (List Char) → List (List Char)
  | _, [] => []
  | acc, p :: ps => (takeLast overlap acc ++ p) :: addOverlapGo overlap (acc ++ p) ps

/-- Modelled from the spec: the token-estimation function of §4.1 (an
approximation; the claims do not constrain its exact value). -/
def estimateTokens (content : List Char) : Nat := content.length / 4 + 1

/-- Modelled from the spec: the content fingerprint used as a cache key
(glossary: a content hash, not a cryptographic identity guarantee). -/
def contentHash (content : List Char) : Nat :=
  content.foldl (fun h c => (h * 131 + c.toNat) % 1000000007) 0

/-- Modelled from the spec: `Segment` (spec §3). -/
structure Segment where
  id : Nat
  document_id : String
  position : Nat
  content : List Char
  token_count : Nat
  content_hash : Nat
deriving DecidableEq, Repr

/-- Wrap the overlapped pieces into `Segment` records with consecutive
0-based positions starting at `pos`. -/
def mkSegments (docId : String) : Nat → List (List Char) → List Segment
  | _, [] => []
  | pos, p :: ps =>
      { id := pos, document_id := docId, position := pos, content := p,
        token_count := estimateTokens p, content_hash := contentHash p } ::
        mkSegments docId (pos + 1) ps

/-- Modelled from the spec: the error taxonomy entry for invalid chunking
configurations (spec §7). -/
inductive ChunkError where
  | configError (message : String)
deriving DecidableEq, Repr

/-- Modelled from the spec: the Chunker contract of §4.1 —
`Chunk(content, config)` returns the ordered segment sequence, or fails with
`ConfigError` before any work starts when the configuration invariants are
violated. -/
def chunk (docId : String) (content : List Char) (config : ChunkingConfig) :
    Except ChunkError (List Segment) :=
  if config.valid then
    .ok (mkSegments docId 0
      (addOverlapGo config.chunk_overlap []
        (splitRec config.chunk_size
          (strategySeparators config.strategy config.custom_separators) content)))
  else
    .error (.configError "invalid chunking configuration")

/-- Removing the overlap region of each segment after the first: `acc` is the
document prefix reconstructed so far, and the overlap region of the next
segment is its first `min overlap acc.length` characters. -/
def removeOverlapsGo (overlap : Nat) : List Char → List Segment → List Char
  | acc, [] => acc
  | acc, s :: ss =>
      removeOverlapsGo overlap (acc ++ s.content.drop (min overlap acc.length)) ss

/-- Concatenation of a segment sequence with the overlap regions between
consecutive segments removed. -/
def removeOverlaps (overlap : Nat) (segs : List Segment) : List Char :=
  removeOverlapsGo overlap [] segs

/-- Modelled from the spec: the Chunker run inside an arbitrary stateful
context; spec §2 declares the Chunker a pure function with no side effects,
so the surrounding state is returned untouched. -/
def chunkWithState {σ : Type} (state : σ) (docId : String) (content : List Char)
    (config : ChunkingConfig) : Except ChunkError (List Segment) × σ :=
  (chunk docId content config, state)

/-- Modelled from the spec: the metadata store holding the committed segment
sets; spec §5 requires the Orchestrator to stage writes and mark a document
ready only once its full segment set is committed, so a commit installs the
whole ordered set at once. -/
structure SegmentStore where
  ready : List (String × List Segment)
deriving Repr

/-- Atomically commit the full segment set of one document (replacing any
previously committed set for it). -/
def SegmentStore.commit (store : SegmentStore) (docId : String)
    (segs : List Segment) : SegmentStore :=
  ⟨(docId, segs) :: store.ready.filter (fun e => e.1 != docId)⟩

/-- What a reader sees for a document: the full committed segment set, or
nothing at all. -/
def SegmentStore.read (store : SegmentStore) (docId : String) :
    Option (List Segment) :=
  (store.ready.find? (fun e => e.1 == docId)).map Prod.snd

/-- Modelled from the spec: the task status enum (spec §3 and the README's
task status list; only the states of the spec's state machine are modelled). -/
inductive TaskStatus where
  | pending
  | received
  | running
  | progress
  | completed
  | failed
  | cancelled
  | rejected
deriving DecidableEq, Fintype, Repr

/-- The terminal statuses of spec §3. -/
def TaskStatus.isTerminal : TaskStatus → Bool
  | .completed => true
  | .failed => true
  | .cancelled => true
  | .rejected => true
  | _ => false

/-- Modelled from the spec: `Task` (spec §3); timestamps are omitted, the
claims do not constrain them. -/
structure Task where
  id : String
  status : TaskStatus
  progress_percent : Nat
  cancel_requested : Bool
  error : Option String
  children : List String
deriving DecidableEq, Repr

/-- Modelled from the spec: the edges of the task status state machine
(spec §3): `pending → received → running ⇄ progress → terminal`, with
rejection from the pre-run states, and cancellation only when
`cancel_requested` was set and is observed at a checkpoint (a worker checks
the flag before starting and between segment batches, spec §4.4). -/
def allowedT (s : TaskStatus) (cancelRequested : Bool) (next : TaskStatus) : Bool :=
  match s, next with
  | .pending, .received => true
  | .pending, .rejected => true
  | .pending, .cancelled => cancelRequested
  | .received, .running => true
  | .received, .rejected => true
  | .received, .cancelled => cancelRequested
  | .running, .progress => true
  | .running, .completed => true
  | .running, .failed => true
  | .running, .cancelled => cancelRequested
  | .progress, .running => true
  | .progress, .progress => true
  | .progress, .completed => true
  | .progress, .failed => true
  | .progress, .cancelled => cancelRequested
  | _, _ => false

/-- Whether the registry permits moving `t` to status `next`. -/
def allowedTransition (t : Task) (next : TaskStatus) : Bool :=
  allowedT t.status t.cancel_requested next

/-- Apply one requested status change: disallowed changes leave the task
untouched. -/
def applyTransition (t : Task) (next : TaskStatus) : Task :=
  if allowedTransition t next then { t with status := next } else t

/-- Apply a whole sequence of requested status changes. -/
def runTransitions (t : Task) : List TaskStatus → Task
  | [] => t
  | n :: ns => runTransitions (applyTransition t n) ns

/-- Modelled from the spec: the fan-out parent's aggregation of child
terminal statuses (spec §4.4): the parent stays non-terminal (`none`) until
every child is terminal; then `completed` only if all children completed,
`failed` if some child failed and none were cancelled, and `cancelled`
otherwise (the parent or an ancestor was cancelled, which under recursive
cancellation also cancels children). -/
def aggregateChildren (children : List TaskStatus) : Option TaskStatus :=
  if children.all TaskStatus.isTerminal then
    some
      (if children.all (fun c => c == TaskStatus.completed) then TaskStatus.completed
       else if children.any (fun c => c == TaskStatus.failed)
           && !(children.any (fun c => c == TaskStatus.cancelled)) then TaskStatus.failed
       else TaskStatus.cancelled)
  else none

/-- Modelled from the spec: the Fingerprint Cache (spec §4.2), a
content-addressed store; keys are fingerprint strings, `put` installs a
key/value pair, `get` returns the value together with the hit flag. -/
structure FingerprintCache (α : Type) where
  entries : List (String × α)

/-- Cache write. -/
def FingerprintCache.put {α : Type} (c : FingerprintCache α) (k : String) (v : α) :
    FingerprintCache α :=
  ⟨(k, v) :: c.entries⟩

/-- Cache read: `(value, hit)`. -/
def FingerprintCache.get {α : Type} (c : FingerprintCache α) (k : String) :
    Option α × Bool :=
  match c.entries.find? (fun e => e.1 == k) with
  | some e => (some e.2, true)
  | none => (none, false)

/-- A whole batch of cache writes, performed in order. -/
def putAll {α : Type} (c : FingerprintCache α) (pairs : List (String × α)) :
    FingerprintCache α :=
  pairs.foldl (fun acc kv => acc.put kv.1 kv.2) c

/-- Modelled from the spec: a worker's execution of an ingest task
(spec §4.4): it checks `cancel_requested` before starting, chunks the
document, and on success transitions the task to `completed` with progress
100; a `ConfigError` makes it `failed`. -/
def runIngestTask (t : Task) (docId : String) (content : List Char)
    (config : ChunkingConfig) : Task :=
  if t.cancel_requested then { t with status := TaskStatus.cancelled }
  else
    match chunk docId content config with
    | .ok _ => { t with status := TaskStatus.completed, progress_percent := 100 }
    | .error _ => { t with status := TaskStatus.failed, error := some "ConfigError" }

/-- The MIME types accepted by `processFiles` in
`src/web/components/KnowledgeBase/DocumentUpload.tsx` (`supportedTypes`). -/
def supportedTypes : List String :=
  ["application/pdf",
   "text/plain",
   "text/markdown",
   "application/vnd.openxmlformats-officedocument.wordprocessingml.document",
   "application/msword",
   "text/csv",
   "application/json"]

/-- A file handed to `processFiles`: only the name and MIME type matter. -/
structure UploadFile where
  name : String
  mime : String
deriving DecidableEq, Repr

/-- The filter step of `processFiles`:
`files.filter(file => supportedTypes.includes(file.type))`. -/
def validFiles (files : List UploadFile) : List UploadFile :=
  files.filter (fun f => supportedTypes.contains f.mime)

/-- The sequence of `uploadDocument` calls performed by `processFiles`: the
function returns early (no uploads) when no file passes the filter, and
otherwise uploads exactly the filtered files in order (per-file failures are
caught and do not stop the loop). -/
def processFilesUploads (files : List UploadFile) : List UploadFile :=
  let valid := validFiles files
  if valid.isEmpty then [] else valid

/-- The event types carried in a parsed server-sent-event payload, as
distinguished by `handleStreamResponse` in
`src/web/services/knowledgeBaseService.ts`; `other` stands for any type the
if/else chain does not recognise. -/
inductive StreamEventType where
  | chunk
  | done
  | error
  | other
deriving DecidableEq, Repr

/-- A parsed SSE payload: its type, the `content` used by `chunk` events and
the `error` message used by `error` events. -/
structure StreamEvent where
  type : StreamEventType
  content : String
  errorMsg : String
deriving DecidableEq, Repr

/-- One complete line handed to the parsing loop of `handleStreamResponse`:
either it does not start with the string `data: ` (and is skipped), or it
does, in which case `JSON.parse` either fails or yields an event. -/
inductive StreamLine where
  | notData (raw : String)
  | data (parsed : Except String StreamEvent)

/-- The callback invocations `handleStreamResponse` can perform. -/
inductive CallbackCall where
  | onData (content : String)
  | onSources
  | onError (message : String)
  | onCompleted
deriving DecidableEq, Repr

/-- The line-processing loop of `handleStreamResponse`, embedded from
`src/web/services/knowledgeBaseService.ts` (lines 246-314): `chunk` events
invoke `onData` and continue, `done` events invoke `onSources` and continue,
`error` events invoke `onError` with the event's error and stop, a JSON parse
failure invokes `onError` with the fixed message and stops, unrecognised
events and non-data lines are skipped, and `onCompleted` runs when the stream
ends. -/
def processStreamLines : List StreamLine → List CallbackCall
  | [] => [.onCompleted]
  | .notData _ :: rest => processStreamLines rest
  | .data (.error _) :: _ => [.onError "Error parsing stream data"]
  | .data (.ok ev) :: rest =>
      match ev.type with
      | .chunk => .onData ev.content :: processStreamLines rest
      | .done => .onSources :: processStreamLines rest
      | .error => [.onError ev.errorMsg]
      | .other => processStreamLines rest

/-- A line at which the loop of `handleStreamResponse` stops early: a data
line that fails to parse, or a parsed event of type `error`. -/
def stopsProcessing : StreamLine → Bool
  | .data (.error _) => true
  | .data (.ok ev) => ev.type == StreamEventType.error
  | _ => false

/-- The callback calls contributed by a run of lines none of which stops the
loop (the value on a stopping line is irrelevant and arbitrary). -/
def okCalls : List StreamLine → List CallbackCall
  | [] => []
  | .notData _ :: rest => okCalls rest
  | .data (.error _) :: rest => okCalls rest
  | .data (.ok ev) :: rest =>
      match ev.type with
      | .chunk => .onData ev.content :: okCalls rest
      | .done => .onSources :: okCalls rest
      | .error => okCalls rest
      | .other => okCalls rest

theorem windowsGo_flatten (size fuel : Nat) (content : List Char) :
    (windowsGo size fuel content).flatten = content := by
  induction fuel generalizing content with
  | zero => cases content <;> simp [windowsGo]
  | succ n ih =>
      cases content with
      | nil => simp [windowsGo]
      | cons c cs => simp [windowsGo, ih]

theorem windows_flatten (size : Nat) (content : List Char) :
    (windows size content).flatten = content :=
  windowsGo_flatten size content.length content

theorem startsWith_append_drop (sep l : List Char) (h : startsWith sep l = true) :
    sep ++ l.drop sep.length = l := by
  induction sep generalizing l with
  | nil => simp
  | cons a as ih =>
      cases l with
      | nil => simp [startsWith] at h
      | cons b bs =>
          simp only [startsWith, Bool.and_eq_true, beq_iff_eq] at h
          simp [h.1, ih bs h.2]

theorem splitKeepGo_flatten (sep : List Char) (fuel : Nat) (acc rest : List Char) :
    (splitKeepGo sep fuel acc rest).flatten = acc.reverse ++ rest := by
  induction fuel generalizing acc rest with
  | zero =>
      cases rest with
      | nil =>
          simp only [splitKeepGo]
          split
          · simp_all [List.isEmpty_iff]
          · simp
      | cons c cs => simp [splitKeepGo]
  | succ n ih =>
      cases rest with
      | nil =>
          simp only [splitKeepGo]
          split
          · simp_all [List.isEmpty_iff]
          · simp
      | cons c cs =>
          simp only [splitKeepGo]
          split
          · rename_i hpre
            rw [List.flatten_cons, ih]
            simp only [List.reverse_nil, List.nil_append, List.append_assoc]
            rw [startsWith_append_drop sep (c :: cs) hpre]
          · rw [ih]
            simp

theorem splitKeep_flatten (sep content : List Char) :
    (splitKeep sep content).flatten = content := by
  simpa using splitKeepGo_flatten sep content.length [] content

theorem mergeGo_flatten (size fuel : Nat) (cur : List Char) (ps : List (List Char)) :
    (mergeGo size fuel cur ps).flatten = cur ++ ps.flatten := by
  induction fuel generalizing cur ps with
  | zero => cases ps <;> simp [mergeGo]
  | succ n ih =>
      cases ps with
      | nil => simp [mergeGo]
      | cons p rest =>
          simp only [mergeGo]
          split
          · rw [ih]; simp
          · rw [List.flatten_cons, ih]; simp

theorem mergeAdjacent_flatten (size : Nat) (ps : List (List Char)) :
    (mergeAdjacent size ps).flatten = ps.flatten := by
  cases ps with
  | nil => simp [mergeAdjacent]
  | cons p rest => simp [mergeAdjacent, mergeGo_flatten]

theorem splitRecFuel_flatten (size : Nat) :
    ∀ (fuel : Nat) (seps : List (List Char)) (content : List Char),
      (splitRecFuel size fuel seps content).flatten = content := by
  intro fuel
  induction fuel with
  | zero =>
      intro seps content
      cases seps <;> simp [splitRecFuel, windows_flatten]
  | succ n ih =>
      intro seps content
      cases seps with
      | nil => simp [splitRecFuel, windows_flatten]
      | cons sep rest =>
          rw [splitRecFuel]
          split
          · split
            · simp_all [List.isEmpty_iff]
            · simp
          · rw [mergeAdjacent_flatten]
            have hparts : ∀ ps : List (List Char),
                ((ps.map (fun p =>
                  if p.length ≤ size then [p]
                  else splitRecFuel size n rest p)).flatten).flatten
                  = ps.flatten := by
              intro ps
              induction ps with
              | nil => simp
              | cons p ps ihp =>
                  simp only [List.map_cons, List.flatten_cons, List.flatten_append, ihp]
                  congr 1
                  split
                  · simp
                  · exact ih rest p
            rw [hparts, splitKeep_flatten]

theorem splitRec_flatten (size : Nat) (seps : List (List Char)) (content : List Char) :
    (splitRec size seps content).flatten = content :=
  splitRecFuel_flatten size seps.length seps content

theorem takeLast_length (n : Nat) (l : List Char) :
    (takeLast n l).length = min n l.length := by
  simp [takeLast]; omega

theorem removeOverlapsGo_mkSegments (overlap : Nat) (docId : String) :
    ∀ (ps : List (List Char)) (acc : List Char) (pos : Nat),
      removeOverlapsGo overlap acc (mkSegments docId pos (addOverlapGo overlap acc ps))
        = acc ++ ps.flatten := by
  intro ps
  induction ps with
  | nil => intro acc pos; simp [addOverlapGo, mkSegments, removeOverlapsGo]
  | cons p rest ih =>
      intro acc pos
      simp only [addOverlapGo, mkSegments, removeOverlapsGo]
      have hlen : (takeLast overlap acc).length = min overlap acc.length :=
        takeLast_length overlap acc
      have hdrop : (takeLast overlap acc ++ p).drop (min overlap acc.length) = p := by
        rw [← hlen, List.drop_left]
      rw [hdrop, ih (acc ++ p) (pos + 1)]
      simp

theorem mkSegments_length (docId : String) (pos : Nat) (ps : List (List Char)) :
    (mkSegments docId pos ps).length = ps.length := by
  induction ps generalizing pos with
  | nil => simp [mkSegments]
  | cons p rest ih => simp [mkSegments, ih]

theorem mkSegments_position (docId : String) :
    ∀ (ps : List (List Char)) (pos i : Nat) (h : i < (mkSegments docId pos ps).length),
      ((mkSegments docId pos ps).get ⟨i, h⟩).position = pos + i := by
  intro ps
  induction ps with
  | nil => intro pos i h; simp [mkSegments] at h
  | cons p rest ih =>
      intro pos i h
      cases i with
      | zero => simp [mkSegments]
      | succ j =>
          simp only [mkSegments, List.length_cons] at h
          have hj : j < (mkSegments docId (pos + 1) rest).length := Nat.lt_of_succ_lt_succ h
          simp only [mkSegments, List.get_cons_succ]
          rw [ih (pos + 1) j hj]
          omega

theorem find?_filter_ne (d docId : String) (hne : d ≠ docId)
    (l : List (String × List Segment)) :
    (l.filter (fun e => e.1 != docId)).find? (fun e => e.1 == d)
      = l.find? (fun e => e.1 == d) := by
  induction l with
  | nil => rfl
  | cons e rest ih =>
      by_cases hd : e.1 = d
      · have h1 : (e.1 != docId) = true := by simp [hd, hne]
        have h2 : (e.1 == d) = true := by simp [hd]
        simp [List.filter_cons, h1, List.find?_cons, h2]
      · have h2 : (e.1 == d) = false := by simp [hd]
        by_cases hq : e.1 = docId
        · have h1 : (e.1 != docId) = false := by simp [hq]
          simp [List.filter_cons, h1, List.find?_cons, h2, ih]
        · have h1 : (e.1 != docId) = true := by simp [hq]
          simp [List.filter_cons, h1, List.find?_cons, h2, ih]

/-- C1: for every document text and chunking configuration, `chunk` is
deterministic — two calls return identical ordered segment sequences — and it
has no side effects: run in any stateful context, it leaves the state
untouched and its result does not depend on that state. -/
theorem chunk_deterministic_and_pure :
    ∀ {σ : Type} (s₁ s₂ : σ) (docId : String) (content : List Char)
      (config : ChunkingConfig),
      chunk docId content config = chunk docId content config
      ∧ (chunkWithState s₁ docId content config).1
          = (chunkWithState s₂ docId content config).1
      ∧ (chunkWithState s₁ docId content config).2 = s₁ :=
  fun _ _ _ _ _ => ⟨rfl, rfl, rfl⟩

theorem valid_eq_false_of_violation (config : ChunkingConfig)
    (h : config.chunk_size ≤ config.chunk_overlap
      ∨ (config.strategy = ChunkStrategy.custom ∧ config.custom_separators = [])) :
    config.valid = false := by
  unfold ChunkingConfig.valid
  rcases h with h1 | ⟨h2, h3⟩
  · have hd : decide (config.chunk_overlap < config.chunk_size) = false := by
      simp only [decide_eq_false_iff_not, not_lt]
      exact h1
    simp [hd]
  · simp [h2, h3]

/-- C2: for every strategy, `chunk` fails with a `ConfigError` whenever the
configuration invariants are violated — in particular whenever
`chunk_overlap` is not strictly less than `chunk_size`, and whenever the
strategy is `custom` with an empty separator list — and the rejection is
independent of the document content, i.e. happens before any work on the
document starts. -/
theorem chunk_rejects_invalid_config (docId : String) (content : List Char)
    (config : ChunkingConfig)
    (h : config.chunk_size ≤ config.chunk_overlap
      ∨ (config.strategy = ChunkStrategy.custom ∧ config.custom_separators = [])) :
    chunk docId content config
        = .error (.configError "invalid chunking configuration")
    ∧ ∀ (docId2 : String) (content2 : List Char),
        chunk docId content config = chunk docId2 content2 config := by
  have hv : config.valid = false := valid_eq_false_of_violation config h
  constructor
  · simp [chunk, hv]
  · intro docId2 content2
    simp [chunk, hv]

theorem chunk_rejects_invalid_config_witness :
    chunk "doc" ['a', 'b'] ⟨ChunkStrategy.paragraph, 5, 5, []⟩
        = .error (.configError "invalid chunking configuration")
    ∧ chunk "doc" ['x'] ⟨ChunkStrategy.custom, 5, 1, []⟩
        = .error (.configError "invalid chunking configuration") :=
  ⟨(chunk_rejects_invalid_config "doc" ['a', 'b']
      ⟨ChunkStrategy.paragraph, 5, 5, []⟩ (Or.inl (by decide))).1,
   (chunk_rejects_invalid_config "doc" ['x']
      ⟨ChunkStrategy.custom, 5, 1, []⟩ (Or.inr ⟨rfl, rfl⟩)).1⟩

/-- C3: for every document and every configuration accepted by `chunk`,
concatenating the returned segments with the overlap regions between
consecutive segments removed reconstructs the document content exactly. -/
theorem chunk_roundtrip (docId : String) (content : List Char)
    (config : ChunkingConfig) (segs : List Segment)
    (hch : chunk docId content config = Except.ok segs) :
    removeOverlaps config.chunk_overlap segs = content := by
  unfold chunk at hch
  split at hch
  · injection hch with hsegs
    subst hsegs
    unfold removeOverlaps
    rw [removeOverlapsGo_mkSegments]
    simp [splitRec_flatten]
  · exact absurd hch (by simp)

theorem chunk_roundtrip_witness :
    ∃ segs : List Segment,
      chunk "doc" ['a', 'b', 'c'] ⟨ChunkStrategy.character, 2, 1, []⟩
          = Except.ok segs
      ∧ removeOverlaps 1 segs = ['a', 'b', 'c'] :=
  ⟨[⟨0, "doc", 0, ['a', 'b'], 1, 12805⟩, ⟨1, "doc", 1, ['b', 'c'], 1, 12937⟩],
   rfl,
   chunk_roundtrip "doc" ['a', 'b', 'c'] ⟨ChunkStrategy.character, 2, 1, []⟩
     [⟨0, "doc", 0, ['a', 'b'], 1, 12805⟩, ⟨1, "doc", 1, ['b', 'c'], 1, 12937⟩]
     (by rfl)⟩

/-- C4: every segment sequence returned by `chunk` has 0-based, strictly
increasing, contiguous positions (segment `i` has position `i`, preserving
document order), and the segment store is all-or-nothing: committing a
document installs its full ordered segment set atomically, a reader sees
exactly that full set, and commits to other documents leave it unchanged. -/
theorem chunk_positions_and_atomic_visibility (docId : String)
    (content : List Char) (config : ChunkingConfig) (segs : List Segment)
    (hch : chunk docId content config = Except.ok segs) :
    (∀ (i : Nat) (h : i < segs.length), (segs.get ⟨i, h⟩).position = i)
    ∧ (∀ (store : SegmentStore), (store.commit docId segs).read docId = some segs)
    ∧ (∀ (store : SegmentStore) (d : String), d ≠ docId →
        (store.commit docId segs).read d = store.read d) := by
  refine ⟨?_, ?_, ?_⟩
  · intro i h
    unfold chunk at hch
    split at hch
    · injection hch with hsegs
      subst hsegs
      simpa using mkSegments_position docId _ 0 i h
    · exact absurd hch (by simp)
  · intro store
    simp [SegmentStore.commit, SegmentStore.read, List.find?_cons]
  · intro store d hne
    simp only [SegmentStore.commit, SegmentStore.read]
    have hd : ((docId, segs).1 == d) = false := by
      simp [Ne.symm hne]
    rw [List.find?_cons, hd]
    rw [find?_filter_ne d docId hne]

theorem chunk_positions_and_atomic_visibility_witness :
    ((SegmentStore.mk []).commit "doc"
        [⟨0, "doc", 0, ['a', 'b'], 1, 12805⟩,
         ⟨1, "doc", 1, ['b', 'c'], 1, 12937⟩]).read "doc"
      = some [⟨0, "doc", 0, ['a', 'b'], 1, 12805⟩,
              ⟨1, "doc", 1, ['b', 'c'], 1, 12937⟩] :=
  (chunk_positions_and_atomic_visibility "doc" ['a', 'b', 'c']
      ⟨ChunkStrategy.character, 2, 1, []⟩
      [⟨0, "doc", 0, ['a', 'b'], 1, 12805⟩, ⟨1, "doc", 1, ['b', 'c'], 1, 12937⟩]
      rfl).2.1 (SegmentStore.mk [])

theorem allowedT_not_terminal :
    ∀ (s : TaskStatus) (cr : Bool) (n : TaskStatus),
      allowedT s cr n = true → s.isTerminal = false := by decide

theorem allowedT_cancel_flag :
    ∀ (s : TaskStatus) (cr : Bool),
      allowedT s cr TaskStatus.cancelled = true → cr = true := by decide

/-- C5: the task status machine — no transition leaves a terminal status, a
transition into `cancelled` happens only when `cancel_requested` was set,
from `pending` the only successors are `received`, `rejected` and
`cancelled`, from `running`/`progress` the only successors are `running`,
`progress` and the terminal statuses, and once a task is terminal no
sequence of requested operations ever changes it again. -/
theorem task_status_state_machine :
    (∀ (t : Task) (next : TaskStatus), allowedTransition t next = true →
        t.status.isTerminal = false)
    ∧ (∀ (t : Task), allowedTransition t TaskStatus.cancelled = true →
        t.cancel_requested = true)
    ∧ (∀ (t : Task) (next : TaskStatus), t.status = TaskStatus.pending →
        allowedTransition t next = true →
        next = TaskStatus.received ∨ next = TaskStatus.rejected
          ∨ next = TaskStatus.cancelled)
    ∧ (∀ (t : Task) (next : TaskStatus),
        (t.status = TaskStatus.running ∨ t.status = TaskStatus.progress) →
        allowedTransition t next = true →
        next = TaskStatus.running ∨ next = TaskStatus.progress
          ∨ next = TaskStatus.completed ∨ next = TaskStatus.failed
          ∨ next = TaskStatus.cancelled)
    ∧ (∀ (t : Task) (ops : List TaskStatus), t.status.isTerminal = true →
        runTransitions t ops = t) := by
  have hpending : ∀ (cr : Bool) (n : TaskStatus),
      allowedT TaskStatus.pending cr n = true →
      n = TaskStatus.received ∨ n = TaskStatus.rejected
        ∨ n = TaskStatus.cancelled := by decide
  have hrun : ∀ (s : TaskStatus) (cr : Bool) (n : TaskStatus),
      (s = TaskStatus.running ∨ s = TaskStatus.progress) →
      allowedT s cr n = true →
      n = TaskStatus.running ∨ n = TaskStatus.progress
        ∨ n = TaskStatus.completed ∨ n = TaskStatus.failed
        ∨ n = TaskStatus.cancelled := by decide
  refine ⟨?_, ?_, ?_, ?_, ?_⟩
  · intro t next h
    exact allowedT_not_terminal t.status t.cancel_requested next h
  · intro t h
    exact allowedT_cancel_flag t.status t.cancel_requested h
  · intro t next hs h
    apply hpending t.cancel_requested next
    rw [← hs]
    exact h
  · intro t next hs h
    exact hrun t.status t.cancel_requested next hs h
  · intro t ops hterm
    induction ops generalizing t with
    | nil => rfl
    | cons n ns ih =>
        have hfalse : allowedTransition t n = false := by
          cases h : allowedTransition t n
          · rfl
          · have hnt := allowedT_not_terminal t.status t.cancel_requested n h
            rw [hterm] at hnt
            exact absurd hnt (by simp)
        have happ : applyTransition t n = t := by
          simp [applyTransition, hfalse]
        rw [runTransitions, happ]
        exact ih t hterm

theorem task_status_state_machine_witness :
    runTransitions
        ⟨"t1", TaskStatus.completed, 100, false, none, []⟩
        [TaskStatus.running, TaskStatus.failed, TaskStatus.pending]
      = ⟨"t1", TaskStatus.completed, 100, false, none, []⟩ :=
  task_status_state_machine.2.2.2.2
    ⟨"t1", TaskStatus.completed, 100, false, none, []⟩
    [TaskStatus.running, TaskStatus.failed, TaskStatus.pending] rfl

/-- C6: fan-out parent aggregation — while any child is non-terminal the
parent has no terminal status at all (so it is neither `completed` nor, under
a non-forced recursive cancel, `cancelled`); the parent is `completed` only
when every child completed; and it is `failed` when some child failed and no
child was cancelled. -/
theorem fanout_parent_aggregation :
    (∀ (children : List TaskStatus) (c : TaskStatus), c ∈ children →
        c.isTerminal = false → aggregateChildren children = none)
    ∧ (∀ (children : List TaskStatus),
        aggregateChildren children = some TaskStatus.completed →
        ∀ c ∈ children, c = TaskStatus.completed)
    ∧ (∀ (children : List TaskStatus),
        (∀ c ∈ children, c.isTerminal = true) →
        (∃ c ∈ children, c = TaskStatus.failed) →
        (∀ c ∈ children, c ≠ TaskStatus.cancelled) →
        aggregateChildren children = some TaskStatus.failed) := by
  refine ⟨?_, ?_, ?_⟩
  · intro children c hc hct
    have hall : children.all TaskStatus.isTerminal = false := by
      rw [List.all_eq_false]
      exact ⟨c, hc, by simp [hct]⟩
    simp [aggregateChildren, hall]
  · intro children hagg c hc
    unfold aggregateChildren at hagg
    split at hagg
    · injection hagg with hs
      split at hs
      · rename_i hall
        rw [List.all_eq_true] at hall
        have := hall c hc
        simpa using this
      · split at hs
        · exact absurd hs (by simp)
        · exact absurd hs (by simp)
    · exact absurd hagg (by simp)
  · intro children hterm hfail hnc
    obtain ⟨c, hc, hcf⟩ := hfail
    have h1 : children.all TaskStatus.isTerminal = true := by
      rw [List.all_eq_true]
      intro x hx
      exact hterm x hx
    have h2 : children.all (fun c => c == TaskStatus.completed) = false := by
      rw [List.all_eq_false]
      exact ⟨c, hc, by simp [hcf]⟩
    have h3 : children.any (fun c => c == TaskStatus.failed) = true := by
      rw [List.any_eq_true]
      exact ⟨c, hc, by simp [hcf]⟩
    have h4 : children.any (fun c => c == TaskStatus.cancelled) = false := by
      rw [List.any_eq_false]
      intro x hx
      simp [hnc x hx]
    simp [aggregateChildren, h1, h2, h3, h4]

theorem fanout_parent_aggregation_witness :
    aggregateChildren [TaskStatus.running, TaskStatus.completed] = none
    ∧ aggregateChildren [TaskStatus.failed, TaskStatus.completed]
        = some TaskStatus.failed :=
  ⟨fanout_parent_aggregation.1 [TaskStatus.running, TaskStatus.completed]
      TaskStatus.running (by simp) rfl,
   fanout_parent_aggregation.2.2 [TaskStatus.failed, TaskStatus.completed]
      (by decide) ⟨TaskStatus.failed, by simp, rfl⟩ (by decide)⟩

theorem cache_get_put_same {α : Type} (c : FingerprintCache α) (k : String) (v : α) :
    (c.put k v).get k = (some v, true) := by
  unfold FingerprintCache.put FingerprintCache.get
  rw [List.find?_cons_of_pos]
  simp

theorem cache_get_put_other {α : Type} (c : FingerprintCache α) (k k2 : String)
    (v : α) (h : k2 ≠ k) :
    (c.put k v).get k2 = c.get k2 := by
  unfold FingerprintCache.put FingerprintCache.get
  rw [List.find?_cons_of_neg]
  simp [Ne.symm h]

theorem putAll_get_of_not_mem {α : Type} (pairs : List (String × α)) :
    ∀ (c : FingerprintCache α) (k : String), k ∉ pairs.map Prod.fst →
      (putAll c pairs).get k = c.get k := by
  induction pairs with
  | nil => intro c k h; rfl
  | cons hd rest ih =>
      intro c k h
      simp only [List.map_cons, List.mem_cons, not_or] at h
      unfold putAll
      rw [List.foldl_cons]
      have hrec := ih (c.put hd.1 hd.2) k h.2
      unfold putAll at hrec
      rw [hrec]
      exact cache_get_put_other c hd.1 k hd.2 h.1

theorem putAll_get_mem {α : Type} (pairs : List (String × α)) :
    ∀ (c : FingerprintCache α), (pairs.map Prod.fst).Nodup →
      ∀ kv ∈ pairs, (putAll c pairs).get kv.1 = (some kv.2, true) := by
  induction pairs with
  | nil => intro c hnd kv hkv; cases hkv
  | cons hd rest ih =>
      intro c hnd kv hkv
      simp only [List.map_cons, List.nodup_cons] at hnd
      rw [List.mem_cons] at hkv
      unfold putAll
      rw [List.foldl_cons]
      rcases hkv with rfl | hkv
      · have hnot : kv.1 ∉ rest.map Prod.fst := hnd.1
        have hskip := putAll_get_of_not_mem rest (c.put kv.1 kv.2) kv.1 hnot
        unfold putAll at hskip
        rw [hskip]
        exact cache_get_put_same c kv.1 kv.2
      · exact ih (c.put hd.1 hd.2) hnd.2 kv hkv

/-- C7: the fingerprint cache — a `get` immediately after a `put` with the
same key returns exactly the written value with the hit flag set (the state
is shared, so this holds for any caller); a `put` does not disturb any other
key; and after a batch of puts with pairwise distinct keys, in any order and
of any size (covering at least the 1,000 pairs of the claim), every key
reads back exactly its own value. -/
theorem cache_read_after_write :
    (∀ (α : Type) (c : FingerprintCache α) (k : String) (v : α),
        (c.put k v).get k = (some v, true))
    ∧ (∀ (α : Type) (c : FingerprintCache α) (k k2 : String) (v : α), k2 ≠ k →
        (c.put k v).get k2 = c.get k2)
    ∧ (∀ (α : Type) (c : FingerprintCache α) (pairs : List (String × α)),
        (pairs.map Prod.fst).Nodup →
        ∀ kv ∈ pairs, (putAll c pairs).get kv.1 = (some kv.2, true)) :=
  ⟨fun _ c k v => cache_get_put_same c k v,
   fun _ c k k2 v h => cache_get_put_other c k k2 v h,
   fun _ c pairs hnd kv hkv => putAll_get_mem pairs c hnd kv hkv⟩

theorem cache_read_after_write_witness :
    (putAll (⟨[]⟩ : FingerprintCache Nat) [("k1", 1), ("k2", 2)]).get "k2"
      = (some 2, true) :=
  cache_read_after_write.2.2 Nat ⟨[]⟩ [("k1", 1), ("k2", 2)]
    (by simp) ("k2", 2) (by simp)

theorem windows_single (size : Nat) (content : List Char) (hne : content ≠ [])
    (hle : content.length ≤ size) : windows size content = [content] := by
  cases content with
  | nil => exact absurd rfl hne
  | cons c cs =>
      unfold windows
      simp only [List.length_cons]
      rw [windowsGo]
      rw [List.take_of_length_le hle, List.drop_eq_nil_of_le hle]
      simp [windowsGo]

theorem splitRec_empty (size : Nat) (seps : List (List Char)) :
    splitRec size seps [] = [] := by
  cases seps with
  | nil => simp [splitRec, splitRecFuel, windows, windowsGo]
  | cons s rest => simp [splitRec, splitRecFuel]

theorem splitRec_single (size : Nat) (seps : List (List Char))
    (content : List Char) (hne : content ≠ [])
    (hle : content.length ≤ size) : splitRec size seps content = [content] := by
  cases seps with
  | nil =>
      unfold splitRec
      simp only [List.length_nil]
      rw [splitRecFuel]
      exact windows_single size content hne hle
  | cons s rest =>
      unfold splitRec
      simp only [List.length_cons]
      rw [splitRecFuel]
      rw [if_pos hle]
      simp [List.isEmpty_iff, hne]

/-- C8: edge cases — for every valid configuration, chunking the empty
document returns zero segments and is not an error; a non-empty document no
longer than `chunk_size` yields exactly one segment carrying the whole
content with no overlap applied; and an ingest worker run over the empty
document ends with the task `completed` at progress 100. -/
theorem chunk_edge_cases (docId : String) (config : ChunkingConfig)
    (hvalid : config.valid = true) :
    chunk docId [] config = Except.ok []
    ∧ (∀ (content : List Char), content ≠ [] →
        content.length ≤ config.chunk_size →
        chunk docId content config
          = Except.ok [⟨0, docId, 0, content, estimateTokens content,
              contentHash content⟩])
    ∧ (∀ (t : Task), t.cancel_requested = false →
        (runIngestTask t docId [] config).status = TaskStatus.completed
        ∧ (runIngestTask t docId [] config).progress_percent = 100) := by
  have hempty : chunk docId [] config = Except.ok [] := by
    rw [chunk, if_pos hvalid, splitRec_empty]
    rfl
  refine ⟨hempty, ?_, ?_⟩
  · intro content hne hle
    rw [chunk, if_pos hvalid, splitRec_single config.chunk_size _ content hne hle]
    simp [addOverlapGo, takeLast, mkSegments]
  · intro t hcr
    rw [runIngestTask, if_neg (by simp [hcr]), hempty]
    exact ⟨rfl, rfl⟩

theorem chunk_edge_cases_witness :
    chunk "doc" [] ⟨ChunkStrategy.paragraph, 10, 2, []⟩ = Except.ok []
    ∧ (runIngestTask ⟨"t2", TaskStatus.pending, 0, false, none, []⟩ "doc" []
          ⟨ChunkStrategy.paragraph, 10, 2, []⟩).status = TaskStatus.completed :=
  ⟨(chunk_edge_cases "doc" ⟨ChunkStrategy.paragraph, 10, 2, []⟩ (by decide)).1,
   ((chunk_edge_cases "doc" ⟨ChunkStrategy.paragraph, 10, 2, []⟩ (by decide)).2.2
      ⟨"t2", TaskStatus.pending, 0, false, none, []⟩ rfl).1⟩

/-- C9: `processFiles` — `uploadDocument` is invoked only for files whose
MIME type is one of the seven supported types; every file of any other MIME
type is filtered out before any upload call; and when no file passes the
filter no upload occurs at all. -/
theorem processFiles_upload_filter :
    (∀ (files : List UploadFile) (f : UploadFile), f ∈ processFilesUploads files →
        supportedTypes.contains f.mime = true)
    ∧ (∀ (files : List UploadFile) (f : UploadFile), f ∈ files →
        supportedTypes.contains f.mime = false → f ∉ processFilesUploads files)
    ∧ (∀ (files : List UploadFile), validFiles files = [] →
        processFilesUploads files = []) := by
  have hmem : ∀ (files : List UploadFile) (f : UploadFile),
      f ∈ processFilesUploads files → f ∈ validFiles files := by
    intro files f hf
    by_cases h : (validFiles files).isEmpty
    · simp [processFilesUploads, h] at hf
    · simpa [processFilesUploads, h] using hf
  refine ⟨?_, ?_, ?_⟩
  · intro files f hf
    have hv := hmem files f hf
    unfold validFiles at hv
    exact (List.mem_filter.mp hv).2
  · intro files f hfmem hmime hin
    have hv := hmem files f hin
    unfold validFiles at hv
    have := (List.mem_filter.mp hv).2
    rw [hmime] at this
    exact absurd this (by simp)
  · intro files h
    unfold processFilesUploads
    rw [h]
    rfl

theorem processFiles_upload_filter_witness :
    UploadFile.mk "evil.exe" "application/x-msdownload"
      ∉ processFilesUploads
          [⟨"a.pdf", "application/pdf"⟩,
           ⟨"evil.exe", "application/x-msdownload"⟩] :=
  processFiles_upload_filter.2.1
    [⟨"a.pdf", "application/pdf"⟩, ⟨"evil.exe", "application/x-msdownload"⟩]
    ⟨"evil.exe", "application/x-msdownload"⟩ (by simp) (by decide)

theorem okCalls_no_onCompleted (lines : List StreamLine) :
    CallbackCall.onCompleted ∉ okCalls lines := by
  induction lines with
  | nil => simp [okCalls]
  | cons l rest ih =>
      cases l with
      | notData raw => simpa [okCalls] using ih
      | data p =>
          cases p with
          | error e => simpa [okCalls] using ih
          | ok ev =>
              obtain ⟨ty, co, er⟩ := ev
              cases ty with
              | chunk => simpa [okCalls] using ih
              | done => simpa [okCalls] using ih
              | error => simpa [okCalls] using ih
              | other => simpa [okCalls] using ih

theorem processStreamLines_append_ok (pre suffix : List StreamLine)
    (h : ∀ l ∈ pre, stopsProcessing l = false) :
    processStreamLines (pre ++ suffix)
      = okCalls pre ++ processStreamLines suffix := by
  induction pre with
  | nil => simp [okCalls]
  | cons l rest ih =>
      have hl : stopsProcessing l = false := h l (by simp)
      have hrest : ∀ x ∈ rest, stopsProcessing x = false :=
        fun x hx => h x (List.mem_cons_of_mem _ hx)
      cases l with
      | notData raw => simpa [processStreamLines, okCalls] using ih hrest
      | data p =>
          cases p with
          | error e => simp [stopsProcessing] at hl
          | ok ev =>
              obtain ⟨ty, co, er⟩ := ev
              cases ty with
              | chunk => simpa [processStreamLines, okCalls] using ih hrest
              | done => simpa [processStreamLines, okCalls] using ih hrest
              | error => simp [stopsProcessing] at hl
              | other => simpa [processStreamLines, okCalls] using ih hrest

theorem onCompleted_iff_no_stop (lines : List StreamLine) :
    CallbackCall.onCompleted ∈ processStreamLines lines
      ↔ ∀ l ∈ lines, stopsProcessing l = false := by
  induction lines with
  | nil => simp [processStreamLines]
  | cons l rest ih =>
      cases l with
      | notData raw =>
          simp [processStreamLines, List.forall_mem_cons, stopsProcessing, ih]
      | data p =>
          cases p with
          | error e =>
              simp [processStreamLines, List.forall_mem_cons, stopsProcessing]
          | ok ev =>
              obtain ⟨ty, co, er⟩ := ev
              cases ty with
              | chunk =>
                  simp [processStreamLines, List.forall_mem_cons,
                    stopsProcessing, ih]
              | done =>
                  simp [processStreamLines, List.forall_mem_cons,
                    stopsProcessing, ih]
              | error =>
                  simp [processStreamLines, List.forall_mem_cons,
                    stopsProcessing]
              | other =>
                  simp [processStreamLines, List.forall_mem_cons,
                    stopsProcessing, ih]

/-- C10: `handleStreamResponse` — `onCompleted` is invoked exactly when no
line stops processing; when the first stopping line is a parsed event of
type `error`, `onError` receives that event's error and processing stops
there with `onCompleted` never invoked; and when the first stopping line is
a JSON parse failure, `onError` receives the fixed parse-error message and
processing likewise stops without `onCompleted`. -/
theorem handleStreamResponse_error_handling :
    (∀ (lines : List StreamLine),
        CallbackCall.onCompleted ∈ processStreamLines lines
          ↔ ∀ l ∈ lines, stopsProcessing l = false)
    ∧ (∀ (pre rest : List StreamLine) (ev : StreamEvent),
        (∀ l ∈ pre, stopsProcessing l = false) →
        ev.type = StreamEventType.error →
        processStreamLines (pre ++ StreamLine.data (Except.ok ev) :: rest)
            = okCalls pre ++ [CallbackCall.onError ev.errorMsg]
          ∧ CallbackCall.onCompleted
              ∉ processStreamLines (pre ++ StreamLine.data (Except.ok ev) :: rest))
    ∧ (∀ (pre rest : List StreamLine) (msg : String),
        (∀ l ∈ pre, stopsProcessing l = false) →
        processStreamLines (pre ++ StreamLine.data (Except.error msg) :: rest)
            = okCalls pre ++ [CallbackCall.onError "Error parsing stream data"]
          ∧ CallbackCall.onCompleted
              ∉ processStreamLines
                  (pre ++ StreamLine.data (Except.error msg) :: rest)) := by
  refine ⟨onCompleted_iff_no_stop, ?_, ?_⟩
  · intro pre rest ev hpre htype
    obtain ⟨ty, co, er⟩ := ev
    subst htype
    have heq := processStreamLines_append_ok pre
      (StreamLine.data (Except.ok ⟨StreamEventType.error, co, er⟩) :: rest) hpre
    rw [heq]
    refine ⟨rfl, ?_⟩
    intro hmem
    rcases List.mem_append.mp hmem with hin | hin
    · exact okCalls_no_onCompleted pre hin
    · simp [processStreamLines] at hin
  · intro pre rest msg hpre
    have heq := processStreamLines_append_ok pre
      (StreamLine.data (Except.error msg) :: rest) hpre
    rw [heq]
    refine ⟨rfl, ?_⟩
    intro hmem
    rcases List.mem_append.mp hmem with hin | hin
    · exact okCalls_no_onCompleted pre hin
    · simp [processStreamLines] at hin

theorem handleStreamResponse_error_handling_witness :
    processStreamLines
        [StreamLine.notData "event: ping",
         StreamLine.data (Except.ok ⟨StreamEventType.error, "", "boom"⟩)]
      = [CallbackCall.onError "boom"] :=
  (handleStreamResponse_error_handling.2.1 [StreamLine.notData "event: ping"]
      [] ⟨StreamEventType.error, "", "boom"⟩
      (by simp [stopsProcessing]) rfl).1

end Rag
